import Mathlib

/-!
Verification of the chunked, resumable BASE64 encoder of
`boost/network/utils/base64/encode.hpp` (cpp-netlib).

The encoder core is embedded shallowly: the C++ `state` template becomes the
structure `Base64.state`, the alphabet/padding policy classes become plain
functions, and the Duff's-device encoding loop of `encoder::encode` becomes
the phase-indexed recursive function `Base64.encodeLoop` (the three `case`
labels of the `switch` are the three phase values).  Machine integers are
modelled by `Nat`; the only wrap-around that matters is the `unsigned short`
line-length counter, which is taken modulo 2^16 exactly where the source
increments it.  Input bytes are `Nat`s; the C++ bit masks (`& 0xfc` etc.)
are kept literally, so values of any size are handled exactly as the masked
C++ arithmetic handles the low 8 bits.
-/

namespace Base64

set_option maxRecDepth 40000

/-- The encoding state of `base64::state<Value>`: the octet index inside the
current (incomplete) 3-byte quantum, the partially shifted value left from
the last chunk, and the current output line length. -/
structure state where
  triplet_index : Nat
  last_encoded_value : Nat
  line_length : Nat
deriving DecidableEq

/-- The default constructor `state() : triplet_index(0), last_encoded_value(0),
line_length(0)`. -/
def state.initial : state := ⟨0, 0, 0⟩

/-- `bool state::empty() const { return triplet_index == 0; }` -/
def state.empty (s : state) : Bool := s.triplet_index == 0

/-- `void state::clear()` — reset all three fields to zero. -/
def state.clear (_s : state) : state := ⟨0, 0, 0⟩

/-- Character table of `default_alphabet::translate` (RFC 4648 standard). -/
def default_alphabet_chars : List Char :=
  "ABCDEFGHIJKLMNOPQRSTUVWXYZabcdefghijklmnopqrstuvwxyz0123456789+/".toList

/-- Character table of `url_and_filename_safe_alphabet::translate`. -/
def url_safe_alphabet_chars : List Char :=
  "ABCDEFGHIJKLMNOPQRSTUVWXYZabcdefghijklmnopqrstuvwxyz0123456789-_".toList

/-- `default_alphabet::translate`: `characters[value]`.  The C++ lookup has no
out-of-range branch (it would be undefined behaviour); the total embedding
returns the NUL character there. -/
def default_alphabet.translate (v : Nat) : Char :=
  default_alphabet_chars.getD v '\x00'

/-- `url_and_filename_safe_alphabet::translate`: `characters[value]`. -/
def url_and_filename_safe_alphabet.translate (v : Nat) : Char :=
  url_safe_alphabet_chars.getD v '\x00'

/-- `padding::append_to`: one `'='` whenever the state is non-empty, a second
one when `triplet_index < 2`. -/
def padding.append_to (rest : state) : List Char :=
  if rest.empty then []
  else '=' :: (if rest.triplet_index < 2 then ['='] else [])

/-- `no_padding::append_to`: writes intentionally nothing out. -/
def no_padding.append_to (_rest : state) : List Char := []

/-- The `enum` constants for maximum line lengths. -/
def no_line_breaks : Nat := 0

/-- MIME maximum line length (76). -/
def max_mime_line_length : Nat := 76

/-- PEM maximum line length (64). -/
def max_pem_line_length : Nat := 64

/-- The template parameters of `encoder<Alphabet, Padding, MaxLineLength>`:
the alphabet's `translate` function, which padding policy is plugged in
(`padded = true` for `padding`, `false` for `no_padding`), and the maximum
line length. -/
structure Config where
  alphabet : Nat → Char
  padded : Bool
  maxLineLength : Nat

/-- Dispatch of the `Padding::append_to` template parameter. -/
def Config.pad_append (cfg : Config) (rest : state) : List Char :=
  if cfg.padded then padding.append_to rest else no_padding.append_to rest

/-- The `normal` encoder specialization. -/
def normal : Config := ⟨default_alphabet.translate, true, no_line_breaks⟩

/-- The `url` encoder specialization. -/
def url : Config := ⟨url_and_filename_safe_alphabet.translate, true, no_line_breaks⟩

/-- The `mime` encoder specialization. -/
def mime : Config := ⟨default_alphabet.translate, true, max_mime_line_length⟩

/-- The `pem` encoder specialization. -/
def pem : Config := ⟨default_alphabet.translate, true, max_pem_line_length⟩

/-- The loop body of `encoder::encode`.  The first argument is the phase:
the `switch (rest.triplet_index)` of the source jumps into the middle of the
loop at `case 0`, `case 1` or `case 2`, and the loop itself cycles through
the three cases; each `case` label is one equation here.  `ev` is the local
`encoded_value` (dead on entry to phase 0, which overwrites it), `ll` the
local `line_length` copy (an `unsigned short`, hence the mod 2^16 on the
increment).  Returns the emitted characters and the state stored by
`rest.set(...)` on exit. -/
def encodeLoop (α : Nat → Char) (N : Nat) :
    Nat → List Nat → Nat → Nat → List Char × state
  | 0, [], _ev, ll => ([], ⟨0, 0, ll⟩)
  | 0, c :: r, _ev, ll =>
      let p := encodeLoop α N 1 r ((c &&& 0x03) <<< 4) ll
      (α ((c &&& 0xfc) >>> 2) :: p.1, p.2)
  | 1, [], ev, ll => ([], ⟨1, ev, ll⟩)
  | 1, c :: r, ev, ll =>
      let p := encodeLoop α N 2 r ((c &&& 0x0f) <<< 2) ll
      (α (ev ||| ((c &&& 0xf0) >>> 4)) :: p.1, p.2)
  | 2, [], ev, ll => ([], ⟨2, ev, ll⟩)
  | 2, c :: r, ev, ll =>
      let out1 := α (ev ||| ((c &&& 0xc0) >>> 6))
      let out2 := α (c &&& 0x3f)
      if N = 0 then
        let p := encodeLoop α N 0 r 0 ll
        (out1 :: out2 :: p.1, p.2)
      else
        let ll2 := (ll + 4) % 65536
        if N ≤ ll2 then
          let p := encodeLoop α N 0 r 0 0
          (out1 :: out2 :: '\n' :: p.1, p.2)
        else
          let p := encodeLoop α N 0 r 0 ll2
          (out1 :: out2 :: p.1, p.2)
  | _ + 3, _, _ev, _ll => ([], ⟨0, 0, 0⟩)

/-- The stateful `encoder::encode(begin, end, output, rest)`: load the state
into the locals, dispatch on `rest.triplet_index` into the loop.  A
`triplet_index` not matching any `case` label would skip the whole `switch`
and return with no writes and no state change (unreachable from the API). -/
def encodeFrom (α : Nat → Char) (N : Nat) (input : List Nat) (rest : state) :
    List Char × state :=
  if rest.triplet_index ≤ 2 then
    encodeLoop α N rest.triplet_index input rest.last_encoded_value rest.line_length
  else ([], rest)

/-- `encoder::encode` with the configuration bundled. -/
def encode (cfg : Config) (input : List Nat) (rest : state) : List Char × state :=
  encodeFrom cfg.alphabet cfg.maxLineLength input rest

/-- `encoder::encode_rest(output, rest)`: if the state is non-empty, emit one
symbol from the pending value, append the padding, and clear the state. -/
def encode_rest (cfg : Config) (rest : state) : List Char × state :=
  if rest.empty then ([], rest)
  else (cfg.alphabet rest.last_encoded_value :: cfg.pad_append rest, rest.clear)

/-- The stateless one-shot `encoder::encode(begin, end, output)`: a fresh
state, one stateful `encode`, then `encode_rest`. -/
def encode_complete (cfg : Config) (input : List Nat) : List Char :=
  let p := encode cfg input state.initial
  p.1 ++ (encode_rest cfg p.2).1

/-- Sequential stateful `encode` calls over a list of chunks, threading one
shared state. -/
def encodeChunks (cfg : Config) : List (List Nat) → state → List Char × state
  | [], st => ([], st)
  | c :: cs, st =>
      let p := encode cfg c st
      let q := encodeChunks cfg cs p.2
      (p.1 ++ q.1, q.2)

/-- A whole chunked session: the chunk-wise `encode` calls from a fresh state
followed by one `encode_rest`. -/
def encodeSession (cfg : Config) (chunks : List (List Nat)) : List Char :=
  let p := encodeChunks cfg chunks state.initial
  p.1 ++ (encode_rest cfg p.2).1

/-- States reachable from a fresh state through the public operations. -/
inductive Reachable (cfg : Config) : state → Prop
  | init : Reachable cfg state.initial
  | enc (l : List Nat) {st : state} : Reachable cfg st →
      Reachable cfg (encode cfg l st).2
  | rest {st : state} : Reachable cfg st →
      Reachable cfg (encode_rest cfg st).2
  | clr {st : state} : Reachable cfg st → Reachable cfg st.clear

/-- The sequence of values passed to `Alphabet::translate` by the loop of
`encoder::encode`, phase by phase; mirrors the three `translate` call sites
(two in `case 2`). -/
def encodeLoopArgs : Nat → List Nat → Nat → List Nat
  | 0, [], _ev => []
  | 0, c :: r, _ev =>
      ((c &&& 0xfc) >>> 2) :: encodeLoopArgs 1 r ((c &&& 0x03) <<< 4)
  | 1, [], _ev => []
  | 1, c :: r, ev =>
      (ev ||| ((c &&& 0xf0) >>> 4)) :: encodeLoopArgs 2 r ((c &&& 0x0f) <<< 2)
  | 2, [], _ev => []
  | 2, c :: r, ev =>
      (ev ||| ((c &&& 0xc0) >>> 6)) :: (c &&& 0x3f) ::
        encodeLoopArgs 0 r 0
  | _ + 3, _, _ev => []

/-- The values passed to `Alphabet::translate` by one stateful `encode` call. -/
def encodeArgs (st : state) (l : List Nat) : List Nat :=
  if st.triplet_index ≤ 2 then
    encodeLoopArgs st.triplet_index l st.last_encoded_value
  else []

/-- The values passed to `Alphabet::translate` by `encode_rest`. -/
def encodeRestArgs (st : state) : List Nat :=
  if st.empty then [] else [st.last_encoded_value]

/-- Reference decoder for RFC 4648 BASE64 with the standard alphabet and
standard padding, written from the RFC: four-symbol groups, the final group
optionally carrying one or two `'='` pad characters. -/
def decodeChar (c : Char) : Option Nat :=
  default_alphabet_chars.findIdx? (fun d => d = c)

/-- Reference RFC 4648 decoder (standard alphabet, standard padding). -/
def decode : List Char → Option (List Nat)
  | [] => some []
  | c1 :: c2 :: c3 :: c4 :: rest =>
    match decodeChar c1, decodeChar c2 with
    | some v1, some v2 =>
      if c3 = '=' then
        if c4 = '=' ∧ rest = [] then some [v1 * 4 + v2 / 16] else none
      else
        match decodeChar c3 with
        | some v3 =>
          if c4 = '=' then
            if rest = [] then some [v1 * 4 + v2 / 16, v2 % 16 * 16 + v3 / 4]
            else none
          else
            match decodeChar c4 with
            | some v4 =>
              match decode rest with
              | some tl =>
                  some ((v1 * 4 + v2 / 16) :: (v2 % 16 * 16 + v3 / 4) ::
                        (v3 % 4 * 64 + v4) :: tl)
              | none => none
            | none => none
        | none => none
    | _, _ => none
  | _ => none

/-- Number of `'='` characters the spec's standard padding rule demands for an
input of `n` bytes. -/
def specPadCount (n : Nat) : Nat :=
  if n % 3 = 1 then 2 else if n % 3 = 2 then 1 else 0

/-- Length of the output of the stateful `encode` (without line breaks) as a
function of the entry phase and the input length. -/
def outLen : Nat → Nat → Nat
  | _, 0 => 0
  | 0, n + 1 => 1 + outLen 1 n
  | 1, n + 1 => 1 + outLen 2 n
  | _, n + 1 => 2 + outLen 0 n

/-- `ins m r l` inserts a line-break character after the first `r` symbols of
`l` and then after every further `m` symbols, leaving any short trailing run
unbroken — the shape of the line-break insertion performed by the encoder. -/
def ins (m r : Nat) (l : List Char) : List Char :=
  if h : m = 0 ∨ r = 0 ∨ l.length < r then l
  else l.take r ++ '\n' :: ins m m (l.drop r)
termination_by l.length
decreasing_by
  push_neg at h
  simp only [List.length_drop]
  omega

/-- Invariant on the loop locals at each phase entry: the pending value is
dead at phase 0, a 2-bit fragment shifted by 4 at phase 1, a 4-bit fragment
shifted by 2 at phase 2. -/
def PhasePre (p ev : Nat) : Prop :=
  p = 0 ∨ (p = 1 ∧ ev < 64 ∧ ev % 16 = 0) ∨ (p = 2 ∧ ev < 64 ∧ ev % 4 = 0)

/-- Well-formedness of an encoding state: the analogous shape conditions on
the stored `triplet_index` and `last_encoded_value`. -/
def stateWF (st : state) : Prop :=
  (st.triplet_index = 0 ∧ st.last_encoded_value = 0)
  ∨ (st.triplet_index = 1 ∧ st.last_encoded_value < 64 ∧
       st.last_encoded_value % 16 = 0)
  ∨ (st.triplet_index = 2 ∧ st.last_encoded_value < 64 ∧
       st.last_encoded_value % 4 = 0)

/-! ### Basic lemmas about the encoding loop -/

/-- At phase 0 the pending `encoded_value` is dead: the loop either overwrites
it (`case 0` reads a fresh octet) or stores a hard zero (`rest.set(0, 0, _)`). -/
lemma encodeLoop_zero_ev (α : Nat → Char) (N : Nat) (l : List Nat)
    (ev ev' ll : Nat) :
    encodeLoop α N 0 l ev ll = encodeLoop α N 0 l ev' ll := by
  cases l <;> rfl

lemma encodeFrom_mk (α : Nat → Char) (N : Nat) (l : List Nat) (p ev ll : Nat)
    (hp : p ≤ 2) :
    encodeFrom α N l ⟨p, ev, ll⟩ = encodeLoop α N p l ev ll := by
  simp [encodeFrom, hp]

/-- The state stored by the loop always has a zero pending value when its
triplet index is zero. -/
lemma encodeLoop_snd_ok (α : Nat → Char) (N : Nat) :
    ∀ (l : List Nat) (p ev ll : Nat),
      ((encodeLoop α N p l ev ll).2).triplet_index = 0 →
      ((encodeLoop α N p l ev ll).2).last_encoded_value = 0 := by
  intro l
  induction l with
  | nil =>
    intro p ev ll h
    match p with
    | 0 => simp [encodeLoop]
    | 1 => simp [encodeLoop] at h
    | 2 => simp [encodeLoop] at h
    | q + 3 => simp [encodeLoop]
  | cons c t ih =>
    intro p ev ll h
    match p with
    | 0 => exact ih 1 _ _ (by simpa [encodeLoop] using h)
    | 1 => exact ih 2 _ _ (by simpa [encodeLoop] using h)
    | 2 =>
      by_cases hN : N = 0
      · subst hN
        simp only [encodeLoop, if_pos rfl] at h ⊢
        exact ih 0 _ _ h
      · by_cases hc : N ≤ (ll + 4) % 65536
        · simp only [encodeLoop, if_neg hN, if_pos hc] at h ⊢
          exact ih 0 _ _ h
        · simp only [encodeLoop, if_neg hN, if_neg hc] at h ⊢
          exact ih 0 _ _ h
    | q + 3 => simp [encodeLoop]

/-- Splitting the input in two and resuming from the stored state produces
exactly the same output and final state as one pass over the whole input. -/
lemma encodeLoop_append (α : Nat → Char) (N : Nat) :
    ∀ (l1 l2 : List Nat) (p ev ll : Nat), p ≤ 2 →
    encodeLoop α N p (l1 ++ l2) ev ll =
      ((encodeLoop α N p l1 ev ll).1 ++
         (encodeFrom α N l2 (encodeLoop α N p l1 ev ll).2).1,
       (encodeFrom α N l2 (encodeLoop α N p l1 ev ll).2).2) := by
  intro l1
  induction l1 with
  | nil =>
    intro l2 p ev ll hp
    interval_cases p
    · simp [encodeLoop, encodeFrom, encodeLoop_zero_ev α N l2 0 ev ll]
    · simp [encodeLoop, encodeFrom]
    · simp [encodeLoop, encodeFrom]
  | cons c t ih =>
    intro l2 p ev ll hp
    interval_cases p
    · simp [encodeLoop, ih l2 1 ((c &&& 0x03) <<< 4) ll (by omega)]
    · simp [encodeLoop, ih l2 2 ((c &&& 0x0f) <<< 2) ll (by omega)]
    · by_cases hN : N = 0
      · subst hN
        simp [encodeLoop, ih l2 0 0 ll (by omega)]
      · by_cases hc : N ≤ (ll + 4) % 65536
        · simp [encodeLoop, hN, hc, ih l2 0 0 0 (by omega)]
        · simp [encodeLoop, hN, hc, ih l2 0 0 ((ll + 4) % 65536) (by omega)]

/-- `encode` version of `encodeLoop_append`, for any state whose stored value
respects the phase-0 convention. -/
lemma encode_append (cfg : Config) (l1 l2 : List Nat) (st : state)
    (h : st.triplet_index = 0 → st.last_encoded_value = 0) :
    encode cfg (l1 ++ l2) st =
      ((encode cfg l1 st).1 ++ (encode cfg l2 (encode cfg l1 st).2).1,
       (encode cfg l2 (encode cfg l1 st).2).2) := by
  rcases st with ⟨p, ev, ll⟩
  by_cases hp : p ≤ 2
  · simpa [encode, encodeFrom_mk _ _ _ _ _ _ hp] using
      encodeLoop_append cfg.alphabet cfg.maxLineLength l1 l2 p ev ll hp
  · simp [encode, encodeFrom, hp]

/-- Chunk-wise encoding with a shared state agrees with one pass over the
concatenation of the chunks. -/
lemma encodeChunks_eq_encode_join (cfg : Config) :
    ∀ (chunks : List (List Nat)) (st : state),
      (st.triplet_index = 0 → st.last_encoded_value = 0) →
      encodeChunks cfg chunks st = encode cfg chunks.flatten st := by
  intro chunks
  induction chunks with
  | nil =>
    intro st h
    rcases st with ⟨p, ev, ll⟩
    by_cases hp : p ≤ 2
    · interval_cases p
      · simp at h
        simp [encodeChunks, encode, encodeFrom, encodeLoop, h]
      · simp [encodeChunks, encode, encodeFrom, encodeLoop]
      · simp [encodeChunks, encode, encodeFrom, encodeLoop]
    · simp [encodeChunks, encode, encodeFrom, hp]
  | cons c cs ih =>
    intro st h
    have hok : ((encode cfg c st).2).triplet_index = 0 →
        ((encode cfg c st).2).last_encoded_value = 0 := by
      rcases st with ⟨p, ev, ll⟩
      by_cases hp : p ≤ 2
      · simpa [encode, encodeFrom_mk _ _ _ _ _ _ hp] using
          encodeLoop_snd_ok cfg.alphabet cfg.maxLineLength c p ev ll
      · simpa [encode, encodeFrom, hp] using h
    rw [List.flatten_cons, encode_append cfg c cs.flatten st h]
    simp [encodeChunks, ih _ hok]

/-! ### State invariants -/

/-- The stored triplet index is the entry phase plus the number of consumed
octets, modulo 3. -/
lemma encodeLoop_snd_ti (α : Nat → Char) (N : Nat) :
    ∀ (l : List Nat) (p ev ll : Nat), p ≤ 2 →
      ((encodeLoop α N p l ev ll).2).triplet_index = (p + l.length) % 3 := by
  intro l
  induction l with
  | nil =>
    intro p ev ll hp
    interval_cases p <;> simp [encodeLoop]
  | cons c t ih =>
    intro p ev ll hp
    interval_cases p
    · have h := ih 1 ((c &&& 0x03) <<< 4) ll (by omega)
      simp [encodeLoop, h]
      omega
    · have h := ih 2 ((c &&& 0x0f) <<< 2) ll (by omega)
      simp [encodeLoop, h]
      omega
    · by_cases hN : N = 0
      · subst hN
        have h := ih 0 0 ll (by omega)
        simp [encodeLoop, h]
        omega
      · by_cases hc : N ≤ (ll + 4) % 65536
        · have h := ih 0 0 0 (by omega)
          simp [encodeLoop, hN, hc, h]
          omega
        · have h := ih 0 0 ((ll + 4) % 65536) (by omega)
          simp [encodeLoop, hN, hc, h]
          omega

lemma ev_phase1_shape (c : Nat) :
    (c &&& 0x03) <<< 4 < 64 ∧ ((c &&& 0x03) <<< 4) % 16 = 0 := by
  have h : c &&& 0x03 ≤ 3 := Nat.and_le_right
  have e : (c &&& 0x03) <<< 4 = (c &&& 0x03) * 16 := by
    rw [Nat.shiftLeft_eq]
  omega

lemma ev_phase2_shape (c : Nat) :
    (c &&& 0x0f) <<< 2 < 64 ∧ ((c &&& 0x0f) <<< 2) % 4 = 0 := by
  have h : c &&& 0x0f ≤ 15 := Nat.and_le_right
  have e : (c &&& 0x0f) <<< 2 = (c &&& 0x0f) * 4 := by
    rw [Nat.shiftLeft_eq]
  omega

/-- The loop stores only well-formed states. -/
lemma encodeLoop_snd_wf (α : Nat → Char) (N : Nat) :
    ∀ (l : List Nat) (p ev ll : Nat), PhasePre p ev →
      stateWF (encodeLoop α N p l ev ll).2 := by
  intro l
  induction l with
  | nil =>
    intro p ev ll hpre
    rcases hpre with h | ⟨h1, h2⟩ | ⟨h1, h2⟩ <;> subst_vars <;>
      simp [encodeLoop, stateWF, *]
  | cons c t ih =>
    intro p ev ll hpre
    have pre1 : PhasePre 1 ((c &&& 0x03) <<< 4) := by
      have := ev_phase1_shape c
      exact Or.inr (Or.inl ⟨rfl, this.1, this.2⟩)
    have pre2 : PhasePre 2 ((c &&& 0x0f) <<< 2) := by
      have := ev_phase2_shape c
      exact Or.inr (Or.inr ⟨rfl, this.1, this.2⟩)
    rcases hpre with h | ⟨h1, _⟩ | ⟨h1, _⟩ <;> subst_vars
    · simpa [encodeLoop] using ih 1 _ ll pre1
    · simpa [encodeLoop] using ih 2 _ ll pre2
    · by_cases hN : N = 0
      · subst hN
        simpa [encodeLoop] using ih 0 0 ll (Or.inl rfl)
      · by_cases hc : N ≤ (ll + 4) % 65536
        · simpa [encodeLoop, hN, hc] using ih 0 0 0 (Or.inl rfl)
        · simpa [encodeLoop, hN, hc] using ih 0 0 ((ll + 4) % 65536) (Or.inl rfl)

/-- Every reachable state is well-formed. -/
lemma reachable_wf (cfg : Config) (st : state) (h : Reachable cfg st) :
    stateWF st := by
  induction h with
  | init => exact Or.inl ⟨rfl, rfl⟩
  | enc l hst ih =>
    rename_i st'
    rcases ih with ⟨h1, h2⟩ | ⟨h1, h2, h3⟩ | ⟨h1, h2, h3⟩
    · rw [encode, encodeFrom, h1]
      simp only [show (0 : Nat) ≤ 2 by omega, if_true]
      exact encodeLoop_snd_wf _ _ l _ _ _ (Or.inl rfl)
    · rw [encode, encodeFrom, h1]
      simp only [show (1 : Nat) ≤ 2 by omega, if_true]
      exact encodeLoop_snd_wf _ _ l _ _ _ (Or.inr (Or.inl ⟨rfl, h2, h3⟩))
    · rw [encode, encodeFrom, h1]
      simp only [show (2 : Nat) ≤ 2 by omega, if_true]
      exact encodeLoop_snd_wf _ _ l _ _ _ (Or.inr (Or.inr ⟨rfl, h2, h3⟩))
  | rest hst ih =>
    rename_i st'
    rw [encode_rest]
    split
    · exact ih
    · exact Or.inl ⟨rfl, rfl⟩
  | clr hst ih => exact Or.inl ⟨rfl, rfl⟩

/-! ### Bounds on the values handed to the alphabet, and the shape of the
emitted characters -/

lemma arg_phase0_lt (c : Nat) : (c &&& 0xfc) >>> 2 < 64 := by
  have h : c &&& 0xfc ≤ 252 := Nat.and_le_right
  have e : (c &&& 0xfc) >>> 2 = (c &&& 0xfc) / 2 ^ 2 :=
    Nat.shiftRight_eq_div_pow _ _
  omega

lemma arg_phase1_lt (c ev : Nat) (hev : ev < 64) :
    ev ||| ((c &&& 0xf0) >>> 4) < 64 := by
  have h : c &&& 0xf0 ≤ 240 := Nat.and_le_right
  have e : (c &&& 0xf0) >>> 4 = (c &&& 0xf0) / 2 ^ 4 :=
    Nat.shiftRight_eq_div_pow _ _
  exact Nat.bitwise_lt_two_pow (n := 6) hev (by omega)

lemma arg_phase2a_lt (c ev : Nat) (hev : ev < 64) :
    ev ||| ((c &&& 0xc0) >>> 6) < 64 := by
  have h : c &&& 0xc0 ≤ 192 := Nat.and_le_right
  have e : (c &&& 0xc0) >>> 6 = (c &&& 0xc0) / 2 ^ 6 :=
    Nat.shiftRight_eq_div_pow _ _
  exact Nat.bitwise_lt_two_pow (n := 6) hev (by omega)

lemma arg_phase2b_lt (c : Nat) : c &&& 0x3f < 64 := by
  have h : c &&& 0x3f ≤ 63 := Nat.and_le_right
  omega

lemma phasePre_one (c : Nat) : PhasePre 1 ((c &&& 0x03) <<< 4) :=
  Or.inr (Or.inl ⟨rfl, (ev_phase1_shape c).1, (ev_phase1_shape c).2⟩)

lemma phasePre_two (c : Nat) : PhasePre 2 ((c &&& 0x0f) <<< 2) :=
  Or.inr (Or.inr ⟨rfl, (ev_phase2_shape c).1, (ev_phase2_shape c).2⟩)

/-- Every value the loop passes to `Alphabet::translate` is below 64. -/
lemma encodeLoopArgs_lt :
    ∀ (l : List Nat) (p ev : Nat), PhasePre p ev →
      ∀ a ∈ encodeLoopArgs p l ev, a < 64 := by
  intro l
  induction l with
  | nil =>
    intro p ev hpre a ha
    rcases hpre with h | ⟨h1, h2, h3⟩ | ⟨h1, h2, h3⟩ <;> subst_vars <;>
      simp [encodeLoopArgs] at ha
  | cons c t ih =>
    intro p ev hpre a ha
    rcases hpre with h | ⟨h1, h2, h3⟩ | ⟨h1, h2, h3⟩ <;> subst_vars
    · simp only [encodeLoopArgs, List.mem_cons] at ha
      rcases ha with rfl | ha
      · exact arg_phase0_lt c
      · exact ih 1 _ (phasePre_one c) a ha
    · simp only [encodeLoopArgs, List.mem_cons] at ha
      rcases ha with rfl | ha
      · exact arg_phase1_lt c ev h2
      · exact ih 2 _ (phasePre_two c) a ha
    · simp only [encodeLoopArgs, List.mem_cons] at ha
      rcases ha with rfl | rfl | ha
      · exact arg_phase2a_lt c ev h2
      · exact arg_phase2b_lt c
      · exact ih 0 0 (Or.inl rfl) a ha

/-- Every character the loop emits is the translation of one of the values in
`encodeLoopArgs`, except the line breaks, which occur only when the maximum
line length is nonzero. -/
lemma encodeLoop_out_chars (α : Nat → Char) (N : Nat) :
    ∀ (l : List Nat) (p ev ll : Nat),
      ∀ x ∈ (encodeLoop α N p l ev ll).1,
        (∃ a ∈ encodeLoopArgs p l ev, x = α a) ∨ (N ≠ 0 ∧ x = '\n') := by
  intro l
  induction l with
  | nil =>
    intro p ev ll x hx
    match p with
    | 0 => simp [encodeLoop] at hx
    | 1 => simp [encodeLoop] at hx
    | 2 => simp [encodeLoop] at hx
    | q + 3 => simp [encodeLoop] at hx
  | cons c t ih =>
    intro p ev ll x hx
    match p with
    | 0 =>
      simp only [encodeLoop, List.mem_cons] at hx
      rcases hx with rfl | hx
      · exact Or.inl ⟨_, by simp [encodeLoopArgs], rfl⟩
      · rcases ih 1 _ ll x hx with ⟨a, ha, rfl⟩ | h
        · exact Or.inl ⟨a, by simp [encodeLoopArgs, ha], rfl⟩
        · exact Or.inr h
    | 1 =>
      simp only [encodeLoop, List.mem_cons] at hx
      rcases hx with rfl | hx
      · exact Or.inl ⟨_, by simp [encodeLoopArgs], rfl⟩
      · rcases ih 2 _ ll x hx with ⟨a, ha, rfl⟩ | h
        · exact Or.inl ⟨a, by simp [encodeLoopArgs, ha], rfl⟩
        · exact Or.inr h
    | 2 =>
      by_cases hN : N = 0
      · subst hN
        simp only [encodeLoop, reduceIte, List.mem_cons] at hx
        rcases hx with rfl | rfl | hx
        · exact Or.inl ⟨_, by simp [encodeLoopArgs], rfl⟩
        · exact Or.inl ⟨_, by simp [encodeLoopArgs], rfl⟩
        · rcases ih 0 0 ll x hx with ⟨a, ha, rfl⟩ | h
          · exact Or.inl ⟨a, by simp [encodeLoopArgs, ha], rfl⟩
          · exact Or.inr h
      · by_cases hc : N ≤ (ll + 4) % 65536
        · simp only [encodeLoop, if_neg hN, if_pos hc, List.mem_cons] at hx
          rcases hx with rfl | rfl | rfl | hx
          · exact Or.inl ⟨_, by simp [encodeLoopArgs], rfl⟩
          · exact Or.inl ⟨_, by simp [encodeLoopArgs], rfl⟩
          · exact Or.inr ⟨hN, rfl⟩
          · rcases ih 0 0 0 x hx with ⟨a, ha, rfl⟩ | h
            · exact Or.inl ⟨a, by simp [encodeLoopArgs, ha], rfl⟩
            · exact Or.inr h
        · simp only [encodeLoop, if_neg hN, if_neg hc, List.mem_cons] at hx
          rcases hx with rfl | rfl | hx
          · exact Or.inl ⟨_, by simp [encodeLoopArgs], rfl⟩
          · exact Or.inl ⟨_, by simp [encodeLoopArgs], rfl⟩
          · rcases ih 0 0 _ x hx with ⟨a, ha, rfl⟩ | h
            · exact Or.inl ⟨a, by simp [encodeLoopArgs, ha], rfl⟩
            · exact Or.inr h
    | q + 3 => simp [encodeLoop] at hx

/-- Combined form: every emitted character is fed through the alphabet at an
index below 64, or is a line break (the latter only with a nonzero maximum
line length). -/
lemma encodeLoop_out_chars_lt (α : Nat → Char) (N : Nat) (l : List Nat)
    (p ev ll : Nat) (hpre : PhasePre p ev) :
    ∀ x ∈ (encodeLoop α N p l ev ll).1,
      (∃ a, a < 64 ∧ x = α a) ∨ (N ≠ 0 ∧ x = '\n') := by
  intro x hx
  rcases encodeLoop_out_chars α N l p ev ll x hx with ⟨a, ha, rfl⟩ | h
  · exact Or.inl ⟨a, encodeLoopArgs_lt l p ev hpre a ha, rfl⟩
  · exact Or.inr h

/-! ### Session-level helpers -/

lemma encode_init (cfg : Config) (b : List Nat) :
    encode cfg b state.initial =
      encodeLoop cfg.alphabet cfg.maxLineLength 0 b 0 0 := rfl

/-- A chunked session is the one-shot encoding of the concatenated chunks. -/
lemma encodeSession_eq (cfg : Config) (chunks : List (List Nat)) :
    encodeSession cfg chunks =
      (encode cfg chunks.flatten state.initial).1 ++
        (encode_rest cfg (encode cfg chunks.flatten state.initial).2).1 := by
  rw [encodeSession,
      encodeChunks_eq_encode_join cfg chunks state.initial (fun _ => rfl)]

/-- Output of `encode_rest` spelled out by triplet index and padding policy. -/
lemma encode_rest_out (cfg : Config) (st : state) :
    (encode_rest cfg st).1 =
      if st.triplet_index = 0 then []
      else
        cfg.alphabet st.last_encoded_value ::
          (if cfg.padded then
             (if st.triplet_index < 2 then ['=', '='] else ['='])
           else []) := by
  rw [encode_rest]
  rcases Nat.eq_zero_or_pos st.triplet_index with h | h
  · simp [state.empty, h]
  · have he : st.empty = false := by
      simp only [state.empty, beq_eq_false_iff_ne, ne_eq]
      omega
    rw [if_neg (by omega : ¬st.triplet_index = 0)]
    simp only [he, Bool.false_eq_true, if_false, Config.pad_append,
      padding.append_to, no_padding.append_to, he]
    by_cases hpad : cfg.padded
    · simp only [hpad, if_true]
      by_cases hlt : st.triplet_index < 2 <;> simp [hlt]
    · simp [hpad]

/-- Characters of an encoding pass from a fresh state: alphabet images of
values below 64, or line breaks (the latter only with line breaking on). -/
lemma mem_encode_init (cfg : Config) (b : List Nat) (x : Char)
    (hx : x ∈ (encode cfg b state.initial).1) :
    (∃ a, a < 64 ∧ x = cfg.alphabet a) ∨
      (cfg.maxLineLength ≠ 0 ∧ x = '\n') := by
  rw [encode_init] at hx
  exact encodeLoop_out_chars_lt _ _ b 0 0 0 (Or.inl rfl) x hx

/-- The final state of an encoding pass from a fresh state is well-formed. -/
lemma encode_init_wf (cfg : Config) (b : List Nat) :
    stateWF (encode cfg b state.initial).2 := by
  rw [encode_init]
  exact encodeLoop_snd_wf _ _ b 0 0 0 (Or.inl rfl)

/-- The final triplet index of an encoding pass from a fresh state is the
input length modulo 3. -/
lemma encode_init_ti (cfg : Config) (b : List Nat) :
    ((encode cfg b state.initial).2).triplet_index = b.length % 3 := by
  rw [encode_init]
  simpa using encodeLoop_snd_ti cfg.alphabet cfg.maxLineLength b 0 0 0 (by omega)

/-! ### Claims -/

/-- Claim C1: chunk-invariance — feeding any partition of a byte sequence
into non-empty slices through the stateful `encode` with one shared,
initially fresh state, then `encode_rest`, produces output identical to the
one-shot `encode_complete`, and the state just before the `encode_rest`
calls agrees in both runs. -/
theorem chunk_invariance (cfg : Config) (b : List Nat)
    (chunks : List (List Nat)) (hne : ∀ c ∈ chunks, c ≠ [])
    (hjoin : chunks.flatten = b) :
    encodeChunks cfg chunks state.initial = encode cfg b state.initial ∧
    encodeSession cfg chunks = encode_complete cfg b := by
  subst hjoin
  have h := encodeChunks_eq_encode_join cfg chunks state.initial (fun _ => rfl)
  exact ⟨h, by simp [encodeSession, encode_complete, h]⟩

theorem chunk_invariance_witness :
    encodeChunks normal [[104], [105, 33]] state.initial =
      encode normal [104, 105, 33] state.initial ∧
    encodeSession normal [[104], [105, 33]] =
      encode_complete normal [104, 105, 33] :=
  chunk_invariance normal [104, 105, 33] [[104], [105, 33]]
    (by decide) (by decide)

/-- Claim C4: the standard alphabet maps 0..63 to `A`–`Z`, `a`–`z`, `0`–`9`,
`+`, `/` in order; the url-safe alphabet is identical except that 62 and 63
map to `-` and `_`; encoding the bytes `{0xFB, 0xF0}` yields `"+/A="` under
the standard and `"-_A="` under the url-safe alphabet. -/
theorem alphabet_selection :
    (List.range 64).map default_alphabet.translate =
      "ABCDEFGHIJKLMNOPQRSTUVWXYZabcdefghijklmnopqrstuvwxyz0123456789+/".toList
    ∧ (List.range 64).map url_and_filename_safe_alphabet.translate =
      "ABCDEFGHIJKLMNOPQRSTUVWXYZabcdefghijklmnopqrstuvwxyz0123456789-_".toList
    ∧ (∀ v, v < 62 →
        url_and_filename_safe_alphabet.translate v = default_alphabet.translate v)
    ∧ url_and_filename_safe_alphabet.translate 62 = '-'
    ∧ url_and_filename_safe_alphabet.translate 63 = '_'
    ∧ encode_complete normal [0xFB, 0xF0] = "+/A=".toList
    ∧ encode_complete url [0xFB, 0xF0] = "-_A=".toList := by
  refine ⟨by decide, by decide, by decide, by decide, by decide,
    by decide, by decide⟩

/-- Claim C7: an empty input writes nothing and leaves the state unchanged
(for any state satisfying the phase-0/zero-carry representation invariant,
which all states produced by the API satisfy); `encode_complete` of the
empty sequence is empty. -/
theorem empty_input_frame (cfg : Config) (st : state)
    (hwf : st.triplet_index = 0 → st.last_encoded_value = 0) :
    encode cfg [] st = ([], st) ∧ encode_complete cfg [] = [] := by
  constructor
  · rcases st with ⟨p, ev, ll⟩
    by_cases hp : p ≤ 2
    · interval_cases p
      · have hev : ev = 0 := hwf rfl
        subst hev
        simp [encode, encodeFrom, encodeLoop]
      · simp [encode, encodeFrom, encodeLoop]
      · simp [encode, encodeFrom, encodeLoop]
    · simp [encode, encodeFrom, hp]
  · rfl

theorem empty_input_frame_witness :
    encode normal [] ⟨2, 60, 7⟩ = ([], ⟨2, 60, 7⟩) ∧
    encode_complete normal [] = [] :=
  empty_input_frame normal ⟨2, 60, 7⟩ (by simp)

/-- Claim C8: a fresh state is empty; after encode calls consuming a byte
count not a multiple of 3 the state is non-empty; `encode_rest` always
leaves an empty state; and `encode_rest` on an empty state writes nothing
and changes nothing. -/
theorem state_emptiness (cfg : Config) (chunks : List (List Nat))
    (hlen : chunks.flatten.length % 3 ≠ 0) :
    state.initial.empty = true
    ∧ (encodeChunks cfg chunks state.initial).2.empty = false
    ∧ (∀ st : state, (encode_rest cfg st).2.empty = true)
    ∧ (∀ st : state, st.empty = true → encode_rest cfg st = ([], st)) := by
  refine ⟨rfl, ?_, ?_, ?_⟩
  · rw [encodeChunks_eq_encode_join cfg chunks state.initial (fun _ => rfl)]
    have h := encode_init_ti cfg chunks.flatten
    simp only [state.empty, beq_eq_false_iff_ne, ne_eq, h]
    omega
  · intro st
    rw [encode_rest]
    split
    · assumption
    · rfl
  · intro st h
    rw [encode_rest, if_pos h]

theorem state_emptiness_witness :
    state.initial.empty = true
    ∧ (encodeChunks normal [[0]] state.initial).2.empty = false
    ∧ (encode_rest normal ⟨2, 8, 0⟩).2.empty = true
    ∧ encode_rest normal state.initial = ([], state.initial) :=
  ⟨(state_emptiness normal [[0]] (by decide)).1,
   (state_emptiness normal [[0]] (by decide)).2.1,
   (state_emptiness normal [[0]] (by decide)).2.2.1 ⟨2, 8, 0⟩,
   (state_emptiness normal [[0]] (by decide)).2.2.2 state.initial rfl⟩

/-- Claim C9: every reachable state satisfies the carry well-formedness
invariant: zero carry at phase 0, a 2-bit value shifted left by 4 at
phase 1, a 4-bit value shifted left by 2 at phase 2, hence always below
64. -/
theorem carry_wellformed (cfg : Config) (st : state) (h : Reachable cfg st) :
    (st.triplet_index = 0 → st.last_encoded_value = 0)
    ∧ (st.triplet_index = 1 →
        ∃ x, x < 4 ∧ st.last_encoded_value = x <<< 4)
    ∧ (st.triplet_index = 2 →
        ∃ x, x < 16 ∧ st.last_encoded_value = x <<< 2)
    ∧ st.last_encoded_value < 64 := by
  have hwf := reachable_wf cfg st h
  rcases hwf with ⟨h1, h2⟩ | ⟨h1, h2, h3⟩ | ⟨h1, h2, h3⟩
  · exact ⟨fun _ => h2, fun hh => by omega, fun hh => by omega, by omega⟩
  · refine ⟨fun hh => by omega, fun _ => ?_, fun hh => by omega, h2⟩
    refine ⟨st.last_encoded_value / 16, by omega, ?_⟩
    rw [Nat.shiftLeft_eq]
    norm_num
    omega
  · refine ⟨fun hh => by omega, fun hh => by omega, fun _ => ?_, h2⟩
    refine ⟨st.last_encoded_value / 4, by omega, ?_⟩
    rw [Nat.shiftLeft_eq]
    norm_num
    omega

theorem carry_wellformed_witness :
    state.initial.last_encoded_value < 64 :=
  (carry_wellformed normal state.initial Reachable.init).2.2.2

/-- Claim C10: from any reachable state, every value `encode` and the
subsequent `encode_rest` pass to `Alphabet::translate` lies in 0..63, so the
64-entry table lookup is always in bounds; moreover every emitted character
is the translation of one of those values or a line break. -/
theorem translate_lookup_safety (cfg : Config) (st : state) (l : List Nat)
    (h : Reachable cfg st) :
    (∀ a ∈ encodeArgs st l, a < 64)
    ∧ (∀ a ∈ encodeRestArgs (encode cfg l st).2, a < 64)
    ∧ (∀ x ∈ (encode cfg l st).1,
        (∃ a ∈ encodeArgs st l, x = cfg.alphabet a) ∨ x = '\n') := by
  have hwf := reachable_wf cfg st h
  have hti : st.triplet_index ≤ 2 := by
    rcases hwf with ⟨h1, _⟩ | ⟨h1, _⟩ | ⟨h1, _⟩ <;> omega
  have hpre : PhasePre st.triplet_index st.last_encoded_value := by
    rcases hwf with ⟨h1, h2⟩ | ⟨h1, h2, h3⟩ | ⟨h1, h2, h3⟩
    · exact Or.inl h1
    · exact Or.inr (Or.inl ⟨h1, h2, h3⟩)
    · exact Or.inr (Or.inr ⟨h1, h2, h3⟩)
  refine ⟨?_, ?_, ?_⟩
  · intro a ha
    rw [encodeArgs, if_pos hti] at ha
    exact encodeLoopArgs_lt l _ _ hpre a ha
  · intro a ha
    have hwf2 : stateWF (encode cfg l st).2 := by
      rw [encode, encodeFrom, if_pos hti]
      exact encodeLoop_snd_wf _ _ l _ _ _ hpre
    rw [encodeRestArgs] at ha
    split at ha
    · simp at ha
    · simp only [List.mem_singleton] at ha
      subst ha
      rcases hwf2 with ⟨_, h2⟩ | ⟨_, h2, _⟩ | ⟨_, h2, _⟩ <;> omega
  · intro x hx
    rw [encode, encodeFrom, if_pos hti] at hx
    rcases encodeLoop_out_chars cfg.alphabet cfg.maxLineLength l _ _ _ x hx with
      ⟨a, ha, rfl⟩ | hnl
    · refine Or.inl ⟨a, ?_, rfl⟩
      rw [encodeArgs, if_pos hti]
      exact ha
    · exact Or.inr hnl.2

theorem translate_lookup_safety_witness :
    (255 &&& 0xfc) >>> 2 < 64 :=
  (translate_lookup_safety normal state.initial [255] Reachable.init).1 _
    (by decide)

/-- Claim C3: with standard padding, a session over any byte sequence ends in
exactly 2 `'='` when the length is ≡ 1 (mod 3), exactly 1 when ≡ 2, and 0
when ≡ 0, with no `'='` anywhere earlier; the snippets `"a"`, `"aa"`,
`"aaa"` encode to `"YQ=="`, `"YWE="`, `"YWFh"`; the no-padding variant never
emits `'='`, yielding `"YQ"`, `"YWE"`, `"YWFh"` on the same inputs. -/
theorem padding_rule (α : Nat → Char) (Nn : Nat) (chunks : List (List Nat))
    (hα : ∀ v, v < 64 → α v ≠ '=') :
    (∃ data, encodeSession ⟨α, true, Nn⟩ chunks =
        data ++ List.replicate (specPadCount chunks.flatten.length) '=' ∧
        '=' ∉ data)
    ∧ '=' ∉ encodeSession ⟨α, false, Nn⟩ chunks
    ∧ encode_complete normal [0x61] = "YQ==".toList
    ∧ encode_complete normal [0x61, 0x61] = "YWE=".toList
    ∧ encode_complete normal [0x61, 0x61, 0x61] = "YWFh".toList
    ∧ encode_complete ⟨default_alphabet.translate, false, 0⟩ [0x61] =
        "YQ".toList
    ∧ encode_complete ⟨default_alphabet.translate, false, 0⟩ [0x61, 0x61] =
        "YWE".toList
    ∧ encode_complete ⟨default_alphabet.translate, false, 0⟩
        [0x61, 0x61, 0x61] = "YWFh".toList := by
  refine ⟨?_, ?_, by decide, by decide, by decide, by decide, by decide,
    by decide⟩
  · rw [encodeSession_eq, encode_rest_out]
    have hwf := encode_init_wf ⟨α, true, Nn⟩ chunks.flatten
    have hti := encode_init_ti ⟨α, true, Nn⟩ chunks.flatten
    have hnomem :
        '=' ∉ (encode ⟨α, true, Nn⟩ chunks.flatten state.initial).1 := by
      intro hmem
      rcases mem_encode_init _ chunks.flatten '=' hmem with ⟨a, ha, hx⟩ | ⟨_, hx⟩
      · exact hα a ha hx.symm
      · exact absurd hx (by decide)
    rcases hwf with ⟨h1, h2⟩ | ⟨h1, h2, h3⟩ | ⟨h1, h2, h3⟩
    · rw [if_pos h1]
      have hmod : chunks.flatten.length % 3 = 0 := by omega
      have hpc : specPadCount chunks.flatten.length = 0 := by
        unfold specPadCount
        rw [hmod]
        decide
      exact ⟨_, by rw [hpc]; simp, hnomem⟩
    · rw [if_neg (by omega),
        if_pos (show (⟨α, true, Nn⟩ : Config).padded = true from rfl),
        if_pos (by omega :
          (encode ⟨α, true, Nn⟩ chunks.flatten state.initial).2.triplet_index < 2)]
      have hmod : chunks.flatten.length % 3 = 1 := by omega
      have hpc : specPadCount chunks.flatten.length = 2 := by
        unfold specPadCount
        rw [hmod]
        decide
      refine ⟨(encode ⟨α, true, Nn⟩ chunks.flatten state.initial).1 ++
          [α (encode ⟨α, true, Nn⟩ chunks.flatten state.initial).2.last_encoded_value],
        by rw [hpc]; simp, ?_⟩
      simp only [List.mem_append, List.mem_singleton]
      rintro (hm | hm)
      · exact hnomem hm
      · exact hα _ h2 hm.symm
    · rw [if_neg (by omega),
        if_pos (show (⟨α, true, Nn⟩ : Config).padded = true from rfl),
        if_neg (by omega :
          ¬(encode ⟨α, true, Nn⟩ chunks.flatten state.initial).2.triplet_index < 2)]
      have hmod : chunks.flatten.length % 3 = 2 := by omega
      have hpc : specPadCount chunks.flatten.length = 1 := by
        unfold specPadCount
        rw [hmod]
        decide
      refine ⟨(encode ⟨α, true, Nn⟩ chunks.flatten state.initial).1 ++
          [α (encode ⟨α, true, Nn⟩ chunks.flatten state.initial).2.last_encoded_value],
        by rw [hpc]; simp, ?_⟩
      simp only [List.mem_append, List.mem_singleton]
      rintro (hm | hm)
      · exact hnomem hm
      · exact hα _ h2 hm.symm
  · rw [encodeSession_eq, encode_rest_out]
    have hwf := encode_init_wf ⟨α, false, Nn⟩ chunks.flatten
    have hnomem :
        '=' ∉ (encode ⟨α, false, Nn⟩ chunks.flatten state.initial).1 := by
      intro hmem
      rcases mem_encode_init _ chunks.flatten '=' hmem with ⟨a, ha, hx⟩ | ⟨_, hx⟩
      · exact hα a ha hx.symm
      · exact absurd hx (by decide)
    have hlev :
        (encode ⟨α, false, Nn⟩ chunks.flatten state.initial).2.last_encoded_value
          < 64 := by
      rcases hwf with ⟨_, h2⟩ | ⟨_, h2, _⟩ | ⟨_, h2, _⟩ <;> omega
    intro hmem
    rcases List.mem_append.mp hmem with hm | hm
    · exact hnomem hm
    · revert hm
      split
      · simp
      · rw [if_neg (show ¬(⟨α, false, Nn⟩ : Config).padded = true by simp)]
        simp only [List.mem_singleton]
        exact fun hh => hα _ hlev hh.symm

theorem padding_rule_witness :
    '=' ∉ encodeSession ⟨default_alphabet.translate, false, 0⟩ [[0x61]] :=
  (padding_rule default_alphabet.translate 0 [[0x61]] (by decide)).2.1

/-! ### Round-trip: mask arithmetic and the reference decoder -/

lemma mask_fc_shr (a : Nat) (h : a < 256) : (a &&& 0xfc) >>> 2 = a / 4 := by
  revert h
  revert a
  decide

lemma mask_03_shl (a : Nat) (h : a < 256) :
    (a &&& 0x03) <<< 4 = a % 4 * 16 := by
  revert h
  revert a
  decide

lemma mask_f0_shr (a : Nat) (h : a < 256) : (a &&& 0xf0) >>> 4 = a / 16 := by
  revert h
  revert a
  decide

lemma mask_0f_shl (a : Nat) (h : a < 256) :
    (a &&& 0x0f) <<< 2 = a % 16 * 4 := by
  revert h
  revert a
  decide

lemma mask_c0_shr (a : Nat) (h : a < 256) : (a &&& 0xc0) >>> 6 = a / 64 := by
  revert h
  revert a
  decide

lemma mask_3f (a : Nat) (h : a < 256) : a &&& 0x3f = a % 64 := by
  revert h
  revert a
  decide

lemma lor_mul16 (p q : Nat) (hp : p < 4) (hq : q < 16) :
    (p * 16) ||| q = p * 16 + q := by
  revert hq
  revert q
  revert hp
  revert p
  decide

lemma lor_mul4 (p q : Nat) (hp : p < 16) (hq : q < 4) :
    (p * 4) ||| q = p * 4 + q := by
  revert hq
  revert q
  revert hp
  revert p
  decide

lemma decodeChar_translate (v : Nat) (h : v < 64) :
    decodeChar (default_alphabet.translate v) = some v := by
  revert h
  revert v
  decide

lemma translate_ne_pad (v : Nat) (h : v < 64) :
    default_alphabet.translate v ≠ '=' := by
  revert h
  revert v
  decide

/-- One full quantum at the head of the input, with line breaking off. -/
lemma encodeLoop0_three (α : Nat → Char) (a b c : Nat) (l : List Nat)
    (ll : Nat) :
    encodeLoop α 0 0 (a :: b :: c :: l) 0 ll =
      (α ((a &&& 0xfc) >>> 2) ::
       α (((a &&& 0x03) <<< 4) ||| ((b &&& 0xf0) >>> 4)) ::
       α (((b &&& 0x0f) <<< 2) ||| ((c &&& 0xc0) >>> 6)) ::
       α (c &&& 0x3f) :: (encodeLoop α 0 0 l 0 ll).1,
       (encodeLoop α 0 0 l 0 ll).2) := by
  simp [encodeLoop]

/-- `encode_complete` with the `normal` preset peels off one quantum. -/
lemma encode_complete_normal_cons3 (a b c : Nat) (l : List Nat) :
    encode_complete normal (a :: b :: c :: l) =
      default_alphabet.translate ((a &&& 0xfc) >>> 2) ::
      default_alphabet.translate
        (((a &&& 0x03) <<< 4) ||| ((b &&& 0xf0) >>> 4)) ::
      default_alphabet.translate
        (((b &&& 0x0f) <<< 2) ||| ((c &&& 0xc0) >>> 6)) ::
      default_alphabet.translate (c &&& 0x3f) ::
      encode_complete normal l := by
  simp only [encode_complete, encode_init,
    show normal.maxLineLength = 0 from rfl, encodeLoop0_three,
    List.cons_append]
  rfl

lemma encode_complete_normal_one (a : Nat) :
    encode_complete normal [a] =
      [default_alphabet.translate ((a &&& 0xfc) >>> 2),
       default_alphabet.translate ((a &&& 0x03) <<< 4), '=', '='] := by
  simp [encode_complete, encode, encodeFrom, encodeLoop, encode_rest,
    state.empty, state.initial, Config.pad_append, padding.append_to, normal]

lemma encode_complete_normal_two (a b : Nat) :
    encode_complete normal [a, b] =
      [default_alphabet.translate ((a &&& 0xfc) >>> 2),
       default_alphabet.translate
         (((a &&& 0x03) <<< 4) ||| ((b &&& 0xf0) >>> 4)),
       default_alphabet.translate ((b &&& 0x0f) <<< 2), '='] := by
  simp [encode_complete, encode, encodeFrom, encodeLoop, encode_rest,
    state.empty, state.initial, Config.pad_append, padding.append_to, normal]

/-- The reference decoder on a final group carrying two pad characters. -/
lemma decode_two_pads (v1 v2 : Nat) (h1 : v1 < 64) (h2 : v2 < 64) :
    decode [default_alphabet.translate v1, default_alphabet.translate v2,
            '=', '='] = some [v1 * 4 + v2 / 16] := by
  simp only [decode, decodeChar_translate v1 h1, decodeChar_translate v2 h2]
  norm_num

/-- The reference decoder on a final group carrying one pad character. -/
lemma decode_one_pad (v1 v2 v3 : Nat) (h1 : v1 < 64) (h2 : v2 < 64)
    (h3 : v3 < 64) :
    decode [default_alphabet.translate v1, default_alphabet.translate v2,
            default_alphabet.translate v3, '='] =
      some [v1 * 4 + v2 / 16, v2 % 16 * 16 + v3 / 4] := by
  simp only [decode, decodeChar_translate v1 h1, decodeChar_translate v2 h2,
    decodeChar_translate v3 h3, if_neg (translate_ne_pad v3 h3)]
  norm_num

/-- The reference decoder on a leading group of four alphabet characters. -/
lemma decode_cons4 (v1 v2 v3 v4 : Nat) (h1 : v1 < 64) (h2 : v2 < 64)
    (h3 : v3 < 64) (h4 : v4 < 64) (tail : List Char) :
    decode (default_alphabet.translate v1 :: default_alphabet.translate v2 ::
            default_alphabet.translate v3 :: default_alphabet.translate v4 ::
            tail) =
      match decode tail with
      | some tl =>
          some ((v1 * 4 + v2 / 16) :: (v2 % 16 * 16 + v3 / 4) ::
                (v3 % 4 * 64 + v4) :: tl)
      | none => none := by
  simp only [decode, decodeChar_translate v1 h1, decodeChar_translate v2 h2,
    decodeChar_translate v3 h3, decodeChar_translate v4 h4,
    if_neg (translate_ne_pad v3 h3), if_neg (translate_ne_pad v4 h4)]

/-- Round-trip at bounded input size (strong induction on the bound). -/
lemma roundtrip_aux :
    ∀ (n : Nat) (b : List Nat), b.length ≤ n → (∀ x ∈ b, x < 256) →
      decode (encode_complete normal b) = some b := by
  intro n
  induction n with
  | zero =>
    intro b hlen hb
    have hnil : b = [] := List.eq_nil_of_length_eq_zero (by omega)
    subst hnil
    rfl
  | succ n ih =>
    intro b hlen hb
    match b with
    | [] => rfl
    | [a] =>
      have ha : a < 256 := hb a (by simp)
      rw [encode_complete_normal_one,
        decode_two_pads _ _ (arg_phase0_lt a) (ev_phase1_shape a).1,
        mask_fc_shr a ha, mask_03_shl a ha]
      simp only [Option.some.injEq, List.cons.injEq, and_true]
      omega
    | [a, b'] =>
      have ha : a < 256 := hb a (by simp)
      have hb' : b' < 256 := hb b' (by simp)
      have h2 : ((a &&& 0x03) <<< 4) ||| ((b' &&& 0xf0) >>> 4) < 64 :=
        arg_phase1_lt b' _ (ev_phase1_shape a).1
      rw [encode_complete_normal_two,
        decode_one_pad _ _ _ (arg_phase0_lt a) h2 (ev_phase2_shape b').1,
        mask_fc_shr a ha, mask_03_shl a ha, mask_f0_shr b' hb',
        mask_0f_shl b' hb',
        lor_mul16 (a % 4) (b' / 16) (by omega) (by omega)]
      simp only [Option.some.injEq, List.cons.injEq, and_true]
      exact ⟨by omega, by omega⟩
    | a :: b' :: c :: l =>
      have ha : a < 256 := hb a (by simp)
      have hb' : b' < 256 := hb b' (by simp)
      have hc : c < 256 := hb c (by simp)
      have h2 : ((a &&& 0x03) <<< 4) ||| ((b' &&& 0xf0) >>> 4) < 64 :=
        arg_phase1_lt b' _ (ev_phase1_shape a).1
      have h3 : ((b' &&& 0x0f) <<< 2) ||| ((c &&& 0xc0) >>> 6) < 64 :=
        arg_phase2a_lt c _ (ev_phase2_shape b').1
      have htail : decode (encode_complete normal l) = some l := by
        refine ih l ?_ ?_
        · simp only [List.length_cons] at hlen
          omega
        · intro x hx
          exact hb x (by simp [hx])
      rw [encode_complete_normal_cons3,
        decode_cons4 _ _ _ _ (arg_phase0_lt a) h2 h3 (arg_phase2b_lt c),
        htail]
      simp only [Option.some.injEq, List.cons.injEq, and_true]
      rw [mask_fc_shr a ha, mask_03_shl a ha, mask_f0_shr b' hb',
        mask_0f_shl b' hb', mask_c0_shr c hc, mask_3f c hc,
        lor_mul16 (a % 4) (b' / 16) (by omega) (by omega),
        lor_mul4 (b' % 16) (c / 64) (by omega) (by omega)]
      refine ⟨by omega, by omega, by omega⟩

/-- Claim C2: decoding `encode_complete(b, normal)` with a reference RFC 4648
decoder (standard alphabet, standard padding) recovers `b` exactly, for
every byte sequence `b`. -/
theorem base64_roundtrip (b : List Nat) (hb : ∀ x ∈ b, x < 256) :
    decode (encode_complete normal b) = some b :=
  roundtrip_aux b.length b le_rfl hb

theorem base64_roundtrip_witness :
    decode (encode_complete normal [0x61, 0x62, 0x63, 0xFF]) =
      some [0x61, 0x62, 0x63, 0xFF] :=
  base64_roundtrip [0x61, 0x62, 0x63, 0xFF] (by decide)

/-! ### Line breaks: the `ins` insertion shape -/

lemma ins_nil (m r : Nat) : ins m r [] = [] := by
  unfold ins
  have h : m = 0 ∨ r = 0 ∨ ([] : List Char).length < r := by
    rcases Nat.eq_zero_or_pos r with h | h
    · exact Or.inr (Or.inl h)
    · exact Or.inr (Or.inr (by simpa using h))
  rw [dif_pos h]

lemma ins_cons (m r : Nat) (x : Char) (xs : List Char) (hr : 2 ≤ r) :
    ins m r (x :: xs) = x :: ins m (r - 1) xs := by
  obtain ⟨s, rfl⟩ : ∃ s, r = s + 2 := ⟨r - 2, by omega⟩
  conv_lhs => rw [ins]
  conv_rhs => rw [ins]
  by_cases hm : m = 0
  · rw [dif_pos (Or.inl hm), dif_pos (Or.inl hm)]
  · by_cases hlen : xs.length < s + 1
    · rw [dif_pos (Or.inr (Or.inr
          (by simp only [List.length_cons]; omega))),
        dif_pos (Or.inr (Or.inr (by omega)))]
    · have hc1 : ¬(m = 0 ∨ s + 2 = 0 ∨ (x :: xs).length < s + 2) := by
        push_neg
        refine ⟨hm, by omega, ?_⟩
        simp only [List.length_cons]
        omega
      have hc2 : ¬(m = 0 ∨ s + 2 - 1 = 0 ∨ xs.length < s + 2 - 1) := by
        push_neg
        exact ⟨hm, by omega, by omega⟩
      rw [dif_neg hc1, dif_neg hc2]
      simp [List.take_succ_cons, List.drop_succ_cons]

lemma ins_break (m : Nat) (hm : m ≠ 0) (x y : Char) (xs : List Char) :
    ins m 2 (x :: y :: xs) = x :: y :: '\n' :: ins m m xs := by
  conv_lhs => rw [ins]
  have hc : ¬(m = 0 ∨ 2 = 0 ∨ (x :: y :: xs).length < 2) := by
    push_neg
    refine ⟨hm, by omega, ?_⟩
    simp only [List.length_cons]
    omega
  rw [dif_neg hc]
  rfl

/-- Core of the amended line-break rule: with a nonzero threshold `N` that
the 16-bit column counter can reach, the output of the loop is the output of
the break-free loop with a line break inserted after every `4 * ⌈N/4⌉`
characters; the entry column is `4 * k` with `k` quanta already on the
line. -/
lemma encodeLoop_ins (α : Nat → Char) (N : Nat) (hN : 0 < N)
    (hN2 : N ≤ 65532) :
    ∀ (l : List Nat) (p ev k : Nat), p ≤ 2 → k < (N + 3) / 4 →
      (encodeLoop α N p l ev (4 * k)).1 =
        ins (4 * ((N + 3) / 4)) (((N + 3) / 4 - k) * 4 - p)
          ((encodeLoop α 0 p l ev 0).1) := by
  intro l
  induction l with
  | nil =>
    intro p ev k hp hk
    interval_cases p <;> simp [encodeLoop, ins_nil]
  | cons c t ih =>
    intro p ev k hp hk
    have hq1 : N ≤ 4 * ((N + 3) / 4) := by omega
    have hq2 : 4 * ((N + 3) / 4) ≤ N + 3 := by omega
    interval_cases p
    · simp only [encodeLoop]
      rw [ins_cons _ _ _ _ (by omega), ih 1 ((c &&& 0x03) <<< 4) k (by omega) hk,
        show ((N + 3) / 4 - k) * 4 - 0 - 1 = ((N + 3) / 4 - k) * 4 - 1 by omega]
    · simp only [encodeLoop]
      rw [ins_cons _ _ _ _ (by omega), ih 2 ((c &&& 0x0f) <<< 2) k (by omega) hk,
        show ((N + 3) / 4 - k) * 4 - 1 - 1 = ((N + 3) / 4 - k) * 4 - 2 by omega]
    · by_cases hbr : k + 1 = (N + 3) / 4
      · have hcond : N ≤ (4 * k + 4) % 65536 := by
          rw [Nat.mod_eq_of_lt (by omega)]
          omega
        simp only [encodeLoop, if_neg (by omega : ¬N = 0), if_pos hcond,
          reduceIte]
        rw [show ((N + 3) / 4 - k) * 4 - 2 = 2 by omega,
          ins_break _ (by omega) _ _ _]
        have h0 := ih 0 0 0 (by omega) (by omega)
        rw [show (4 : Nat) * 0 = 0 by omega] at h0
        rw [h0, show ((N + 3) / 4 - 0) * 4 - 0 = 4 * ((N + 3) / 4) by omega]
      · have hcond : ¬N ≤ (4 * k + 4) % 65536 := by
          rw [Nat.mod_eq_of_lt (by omega)]
          omega
        simp only [encodeLoop, if_neg (by omega : ¬N = 0), if_neg hcond,
          reduceIte]
        rw [Nat.mod_eq_of_lt (by omega : 4 * k + 4 < 65536),
          show (4 : Nat) * k + 4 = 4 * (k + 1) by omega,
          ih 0 0 (k + 1) (by omega) (by omega),
          ins_cons _ _ _ _ (by omega), ins_cons _ _ _ _ (by omega),
          show ((N + 3) / 4 - k) * 4 - 2 - 1 - 1 =
            ((N + 3) / 4 - (k + 1)) * 4 - 0 by omega]

/-- Claim C5 (as stated) is false: with the configured positive threshold
`N = 2` and the 3-byte input `{0,0,0}` the encoder emits no line break after
the first 2 output symbols (position 2 holds `A`); the only line break comes
after the full 4-symbol quantum. -/
theorem line_break_rule_counterexample :
    encode_complete ⟨default_alphabet.translate, true, 2⟩ [0, 0, 0] =
      ['A', 'A', 'A', 'A', '\n']
    ∧ (encode_complete ⟨default_alphabet.translate, true, 2⟩ [0, 0, 0])[2]? =
        some 'A'
    ∧ ('A' : Char) ≠ '\n' := by
  decide

/-- Claim C5 (amended): for a configured threshold `N` with
`0 < N ≤ 65532` (larger values overflow the 16-bit column counter), a line
break is inserted after every `4 * ⌈N/4⌉` output symbols — i.e. at the first
quantum boundary at which the column count reaches or exceeds `N` — never
splitting a quantum, and the break resets the column count; with threshold
0 no line break is ever emitted. -/
theorem line_break_rule_amended (α : Nat → Char) (N : Nat) (b : List Nat)
    (hN : 0 < N) (hN2 : N ≤ 65532) (hα : ∀ v, v < 64 → α v ≠ '\n') :
    (encodeFrom α N b state.initial).1 =
      ins (4 * ((N + 3) / 4)) (4 * ((N + 3) / 4))
        ((encodeFrom α 0 b state.initial).1)
    ∧ '\n' ∉ (encodeFrom α 0 b state.initial).1 := by
  constructor
  · have h := encodeLoop_ins α N hN hN2 b 0 0 0 (by omega)
      (by omega)
    rw [show (4 : Nat) * 0 = 0 by omega] at h
    rw [show ((N + 3) / 4 - 0) * 4 - 0 = 4 * ((N + 3) / 4) by omega] at h
    exact h
  · intro hmem
    rcases encodeLoop_out_chars_lt α 0 b 0 0 0 (Or.inl rfl) '\n' hmem with
      ⟨a, ha, hx⟩ | ⟨h0, _⟩
    · exact hα a ha hx.symm
    · exact h0 rfl

theorem line_break_rule_amended_witness :
    (encodeFrom default_alphabet.translate 2 [0, 0, 0] state.initial).1 =
      ins (4 * ((2 + 3) / 4)) (4 * ((2 + 3) / 4))
        ((encodeFrom default_alphabet.translate 0 [0, 0, 0] state.initial).1)
    ∧ '\n' ∉ (encodeFrom default_alphabet.translate 0 [0, 0, 0]
        state.initial).1 :=
  line_break_rule_amended default_alphabet.translate 2 [0, 0, 0]
    (by omega) (by omega) (by decide)

/-! ### Line-break positions for a 100-byte input -/

lemma translate_ne_nl (v : Nat) (h : v < 64) :
    default_alphabet.translate v ≠ '\n' := by
  revert h
  revert v
  decide

/-- Output length of the break-free loop. -/
lemma encodeLoop0_len (α : Nat → Char) :
    ∀ (l : List Nat) (p ev ll : Nat), p ≤ 2 →
      ((encodeLoop α 0 p l ev ll).1).length = outLen p l.length := by
  intro l
  induction l with
  | nil =>
    intro p ev ll hp
    interval_cases p <;> simp [encodeLoop, outLen]
  | cons c t ih =>
    intro p ev ll hp
    interval_cases p
    · simp [encodeLoop, outLen, ih 1 ((c &&& 0x03) <<< 4) ll (by omega)]
      omega
    · simp [encodeLoop, outLen, ih 2 ((c &&& 0x0f) <<< 2) ll (by omega)]
      omega
    · simp [encodeLoop, outLen, ih 0 0 ll (by omega)]
      omega

lemma no_newline_getElem (L : List Char) (h : '\n' ∉ L) (i : Nat) :
    L[i]? ≠ some '\n' := fun hh => h (List.getElem?_mem hh)

/-- Position of the unique line break in `A ++ '\n' :: B` when neither part
contains one. -/
lemma newline_single (A B : List Char) (hA : '\n' ∉ A) (hB : '\n' ∉ B)
    (i : Nat) :
    (A ++ '\n' :: B)[i]? = some '\n' ↔ i = A.length := by
  constructor
  · intro h
    rcases Nat.lt_trichotomy i A.length with hlt | heq | hgt
    · exfalso
      rw [List.getElem?_append, if_pos hlt] at h
      exact hA (List.getElem?_mem h)
    · exact heq
    · exfalso
      rw [List.getElem?_append, if_neg (by omega)] at h
      obtain ⟨j, hj⟩ : ∃ j, i - A.length = j + 1 := ⟨i - A.length - 1, by omega⟩
      rw [hj, List.getElem?_cons_succ] at h
      exact hB (List.getElem?_mem h)
  · rintro rfl
    rw [List.getElem?_append, if_neg (by omega), Nat.sub_self]
    simp

/-- Positions of the two line breaks in `A ++ '\n' :: (B ++ '\n' :: C)`. -/
lemma newline_double (A B C : List Char) (hA : '\n' ∉ A) (hB : '\n' ∉ B)
    (hC : '\n' ∉ C) (i : Nat) :
    (A ++ '\n' :: (B ++ '\n' :: C))[i]? = some '\n' ↔
      i = A.length ∨ i = A.length + B.length + 1 := by
  rw [List.getElem?_append]
  by_cases hlt : i < A.length
  · rw [if_pos hlt]
    constructor
    · intro h
      exact absurd (List.getElem?_mem h) hA
    · intro h
      exfalso
      omega
  · rw [if_neg hlt]
    push_neg at hlt
    rcases Nat.eq_or_lt_of_le hlt with heq | hgt
    · constructor
      · intro _
        exact Or.inl heq.symm
      · intro _
        rw [← heq, Nat.sub_self]
        simp
    · obtain ⟨j, hj⟩ : ∃ j, i - A.length = j + 1 := ⟨i - A.length - 1, by omega⟩
      rw [hj, List.getElem?_cons_succ, newline_single B C hB hC j]
      constructor
      · intro h
        right
        omega
      · intro h
        rcases h with h | h <;> omega

/-- `ins` with exactly one break (the list is at least one block but less
than two blocks long). -/
lemma ins_once (m : Nat) (hm : m ≠ 0) (D : List Char) (h1 : m ≤ D.length)
    (h2 : D.length < 2 * m) :
    ins m m D = D.take m ++ '\n' :: D.drop m := by
  conv_lhs => rw [ins]
  have hc : ¬(m = 0 ∨ m = 0 ∨ D.length < m) := by
    push_neg
    exact ⟨hm, hm, h1⟩
  rw [dif_neg hc, ins]
  have hc2 : m = 0 ∨ m = 0 ∨ (D.drop m).length < m := by
    right
    right
    rw [List.length_drop]
    omega
  rw [dif_pos hc2]

/-- `ins` with exactly two breaks. -/
lemma ins_twice (m : Nat) (hm : m ≠ 0) (D : List Char)
    (h1 : 2 * m ≤ D.length) (h2 : D.length < 3 * m) :
    ins m m D =
      D.take m ++ '\n' ::
        ((D.drop m).take m ++ '\n' :: (D.drop m).drop m) := by
  conv_lhs => rw [ins]
  have hc : ¬(m = 0 ∨ m = 0 ∨ D.length < m) := by
    push_neg
    exact ⟨hm, hm, by omega⟩
  rw [dif_neg hc,
    ins_once m hm (D.drop m) (by rw [List.length_drop]; omega)
      (by rw [List.length_drop]; omega)]

/-- Claim C6: for every 100-byte input, the `mime` preset (76-column breaks)
places its single line break exactly at output position 76; the `pem` preset
(64-column breaks) places its two line breaks exactly at positions 64 and
129; the `normal` preset emits none. -/
theorem hundred_byte_line_breaks (b : List Nat) (hlen : b.length = 100) :
    (∀ i : Nat, (encode_complete mime b)[i]? = some '\n' ↔ i = 76)
    ∧ (∀ i : Nat, (encode_complete pem b)[i]? = some '\n' ↔ (i = 64 ∨ i = 129))
    ∧ (∀ i : Nat, (encode_complete normal b)[i]? ≠ some '\n') := by
  have hD0 : ∀ x ∈ (encodeLoop default_alphabet.translate 0 0 b 0 0).1,
      x ≠ '\n' := by
    intro x hx
    rcases encodeLoop_out_chars_lt default_alphabet.translate 0 b 0 0 0
        (Or.inl rfl) x hx with ⟨a, ha, rfl⟩ | ⟨h0, _⟩
    · exact translate_ne_nl a ha
    · exact absurd rfl h0
  have hDn : '\n' ∉ (encodeLoop default_alphabet.translate 0 0 b 0 0).1 :=
    fun hmem => hD0 _ hmem rfl
  have hDlen : ((encodeLoop default_alphabet.translate 0 0 b 0 0).1).length
      = 133 := by
    rw [encodeLoop0_len default_alphabet.translate b 0 0 0 (by omega), hlen]
    decide
  have hrest : ∀ (cfg : Config), cfg.alphabet = default_alphabet.translate →
      cfg.padded = true →
      ∀ x ∈ (encode_rest cfg (encode cfg b state.initial).2).1, x ≠ '\n' := by
    intro cfg hcα hcp x hx
    have hti : ((encode cfg b state.initial).2).triplet_index = 1 := by
      rw [encode_init_ti, hlen]
    have hwf := encode_init_wf cfg b
    have hlev : ((encode cfg b state.initial).2).last_encoded_value < 64 := by
      rcases hwf with ⟨_, h2⟩ | ⟨_, h2, _⟩ | ⟨_, h2, _⟩ <;> omega
    rw [encode_rest_out, if_neg (by omega), hcα, hcp, if_pos rfl,
      if_pos (by omega)] at hx
    simp only [List.mem_cons, List.not_mem_nil, or_false] at hx
    rcases hx with rfl | rfl | rfl
    · exact translate_ne_nl _ hlev
    · decide
    · decide
  set D := (encodeLoop default_alphabet.translate 0 0 b 0 0).1 with hDdef
  refine ⟨?_, ?_, ?_⟩
  · intro i
    set R := (encode_rest mime (encode mime b state.initial).2).1 with hRdef
    have hins := encodeLoop_ins default_alphabet.translate 76 (by omega)
      (by omega) b 0 0 0 (by omega) (by omega)
    rw [show (4 : Nat) * 0 = 0 by omega] at hins
    norm_num at hins
    rw [← hDdef] at hins
    have hA : '\n' ∉ List.take 76 D :=
      fun hmem => hDn (List.take_subset _ _ hmem)
    have hB : '\n' ∉ List.drop 76 D ++ R := by
      intro hmem
      rcases List.mem_append.mp hmem with hm | hm
      · exact hDn (List.drop_subset _ _ hm)
      · exact hrest mime rfl rfl _ hm rfl
    have hout : encode_complete mime b =
        List.take 76 D ++ '\n' :: (List.drop 76 D ++ R) := by
      show (encode mime b state.initial).1 ++ _ = _
      rw [show (encode mime b state.initial).1 =
          (encodeLoop default_alphabet.translate 76 0 b 0 0).1 from rfl]
      rw [hins, ins_once 76 (by omega) _ (by omega) (by omega)]
      simp [List.append_assoc]
    rw [hout, newline_single (List.take 76 D) (List.drop 76 D ++ R) hA hB i,
      List.length_take]
    omega
  · intro i
    set R := (encode_rest pem (encode pem b state.initial).2).1 with hRdef
    have hins := encodeLoop_ins default_alphabet.translate 64 (by omega)
      (by omega) b 0 0 0 (by omega) (by omega)
    rw [show (4 : Nat) * 0 = 0 by omega] at hins
    norm_num at hins
    rw [← hDdef] at hins
    have hA : '\n' ∉ List.take 64 D :=
      fun hmem => hDn (List.take_subset _ _ hmem)
    have hB : '\n' ∉ List.take 64 (List.drop 64 D) :=
      fun hmem => hDn (List.drop_subset _ _ (List.take_subset _ _ hmem))
    have hC : '\n' ∉ List.drop 64 (List.drop 64 D) ++ R := by
      intro hmem
      rcases List.mem_append.mp hmem with hm | hm
      · exact hDn (List.drop_subset _ _ (List.drop_subset _ _ hm))
      · exact hrest pem rfl rfl _ hm rfl
    have hout : encode_complete pem b =
        List.take 64 D ++ '\n' ::
          (List.take 64 (List.drop 64 D) ++ '\n' ::
            (List.drop 64 (List.drop 64 D) ++ R)) := by
      show (encode pem b state.initial).1 ++ _ = _
      rw [show (encode pem b state.initial).1 =
          (encodeLoop default_alphabet.translate 64 0 b 0 0).1 from rfl]
      rw [hins, ins_twice 64 (by omega) _ (by omega) (by omega)]
      simp [List.append_assoc]
    rw [hout, newline_double (List.take 64 D) (List.take 64 (List.drop 64 D))
        (List.drop 64 (List.drop 64 D) ++ R) hA hB hC i,
      List.length_take, List.length_take, List.length_drop]
    omega
  · intro i
    apply no_newline_getElem
    intro hmem
    rcases List.mem_append.mp hmem with hm | hm
    · exact hDn hm
    · exact hrest normal rfl rfl _ hm rfl

theorem hundred_byte_line_breaks_witness :
    ((encode_complete mime (List.replicate 100 0))[76]? = some '\n')
    ∧ ((encode_complete pem (List.replicate 100 0))[64]? = some '\n')
    ∧ ((encode_complete pem (List.replicate 100 0))[129]? = some '\n')
    ∧ ((encode_complete normal (List.replicate 100 0))[0]? ≠ some '\n') :=
  ⟨((hundred_byte_line_breaks _ (by simp)).1 76).mpr rfl,
   ((hundred_byte_line_breaks _ (by simp)).2.1 64).mpr (Or.inl rfl),
   ((hundred_byte_line_breaks _ (by simp)).2.1 129).mpr (Or.inr rfl),
   (hundred_byte_line_breaks _ (by simp)).2.2 0⟩

end Base64